import Mathlib

/-!
Shallow embedding of the `portwitch` repository (src/lsof.rs, src/main.rs).

Byte strings (`&[u8]`, `&str`, `String`) are modelled as `List Nat` of byte
values; `&str` values keep their byte representation, so Rust string
equality and substring containment coincide with list equality and
contiguous-sublist containment on the byte lists.  Rust panics
(`BTreeMap` indexing on a missing key, `.parse().unwrap()`) are modelled by
`Except Panic`.
-/

/-- Split a byte list at every occurrence of the delimiter `d`, like Rust's
`slice::split`: the empty list yields one empty chunk, a trailing delimiter
yields a trailing empty chunk. -/
def splitByte (d : Nat) : List Nat → List (List Nat)
  | [] => [[]]
  | b :: rest =>
    if b == d then [] :: splitByte d rest
    else
      match splitByte d rest with
      | [] => [[b]]
      | g :: gs => (b :: g) :: gs

/-- Model of `slice::strip_prefix`: `stripTag t bs` models `slice::strip_prefix`: if `t` is an initial
segment of `bs`, return the remainder, else `none`. -/
def stripTag : List Nat → List Nat → Option (List Nat)
  | [], bs => some bs
  | _ :: _, [] => none
  | t :: ts, b :: bs => if t == b then stripTag ts bs else none

/-- Is `b` a UTF-8 continuation byte (`0x80..=0xBF`)? -/
def contByte (b : Nat) : Bool := 128 ≤ b && b ≤ 191

/-- States of the UTF-8 validation automaton: how many continuation bytes
are still expected, with the constrained second-byte cases for lead bytes
`E0`, `ED`, `F0`, `F4` kept separate (exactly the ranges Rust's
`str::from_utf8` accepts). -/
inductive Utf8State
  | start
  | one
  | twoE0
  | twoED
  | two
  | threeF0
  | threeF4
  | three
deriving DecidableEq

/-- One step of the UTF-8 validation automaton. -/
def utf8Step : Utf8State → Nat → Option Utf8State
  | .start, b =>
    if b ≤ 127 then some .start
    else if b ≤ 193 then none
    else if b ≤ 223 then some .one
    else if b == 224 then some .twoE0
    else if b == 237 then some .twoED
    else if b ≤ 239 then some .two
    else if b == 240 then some .threeF0
    else if b ≤ 243 then some .three
    else if b == 244 then some .threeF4
    else none

  | .one, b => if contByte b then some .start else none
  | .twoE0, b => if 160 ≤ b && b ≤ 191 then some .one else none
  | .twoED, b => if 128 ≤ b && b ≤ 159 then some .one else none
  | .two, b => if contByte b then some .one else none
  | .threeF0, b => if 144 ≤ b && b ≤ 191 then some .two else none
  | .threeF4, b => if 128 ≤ b && b ≤ 143 then some .two else none
  | .three, b => if contByte b then some .two else none

/-- Run the UTF-8 automaton over a byte list; valid iff it ends in `start`. -/
def utf8Run : Utf8State → List Nat → Bool
  | s, [] => s == .start
  | s, b :: rest =>
    match utf8Step s b with
    | some s2 => utf8Run s2 rest
    | none => false

/-- Model of `str::from_utf8(bytes).is_ok()`. -/
def utf8Valid (l : List Nat) : Bool := utf8Run .start l

/-- Accumulate decimal digit bytes into a number; `none` on any non-digit. -/
def digitsToNatAux : List Nat → Nat → Option Nat
  | [], acc => some acc
  | d :: rest, acc =>
    if 48 ≤ d && d ≤ 57 then digitsToNatAux rest (acc * 10 + (d - 48)) else none

/-- A non-empty all-digit byte list to its value, else `none`. -/
def digitsToNat : List Nat → Option Nat
  | [] => none
  | l => digitsToNatAux l 0

/-- Model of `<usize as FromStr>::from_str` (as used by `.parse()` in
`process_set`): an optional leading `+`, then one or more ASCII digits,
value bounded by `usize::MAX` on a 64-bit target. -/
def parseUsize (s : List Nat) : Option Nat :=
  let digits :=
    match s with
    | 43 :: rest => rest
    | _ => s
  match digitsToNat digits with
  | some n => if n < 2 ^ 64 then some n else none
  | none => none

/-- The four field kinds of `lsof.rs`, in the `EnumIter` declaration order. -/
inductive FieldType
  | Pid
  | Command
  | Network
  | TcpState
deriving DecidableEq

/-- Model of `FieldType::prefix` of `lsof.rs`: the byte tag announcing each field
(`p`, `c`, `n`, `TST=`). -/
def FieldType.tagBytes : FieldType → List Nat
  | .Pid => [112]
  | .Command => [99]
  | .Network => [110]
  | .TcpState => [84, 83, 84, 61]

/-- The order `FieldType::iter()` tries the tags in. -/
def fieldTypeIterOrder : List FieldType :=
  [.Pid, .Command, .Network, .TcpState]

/-- The loop body of `parse_lsof_part`: try each field tag in order; on the
first tag that matches, the payload must be valid UTF-8, otherwise the
whole chunk yields nothing (the `?` on `str::from_utf8(..).ok()` returns
from the function, it does not try later tags). -/
def parseChunkFields (chunk : List Nat) : List FieldType → Option (FieldType × List Nat)
  | [] => none
  | f :: fs =>
    match stripTag f.tagBytes chunk with
    | some payload => if utf8Valid payload then some (f, payload) else none
    | none => parseChunkFields chunk fs

/-- Model of `parse_lsof_part` of `lsof.rs`. -/
def parse_lsof_part (chunk : List Nat) : Option (FieldType × List Nat) :=
  parseChunkFields chunk fieldTypeIterOrder

/-- A `BTreeMap<FieldType, &str>` with the four-constructor key type is
represented by one optional value per key. -/
structure FieldMap where
  pid? : Option (List Nat)
  command? : Option (List Nat)
  network? : Option (List Nat)
  tcpState? : Option (List Nat)
deriving DecidableEq

/-- The empty field map. -/
def FieldMap.empty : FieldMap := ⟨none, none, none, none⟩

/-- Map insertion: a later field of the same kind overwrites an earlier one
(`BTreeMap` insertion order from `collect()`). -/
def insertField (m : FieldMap) : FieldType × List Nat → FieldMap
  | (.Pid, v) => { m with pid? := some v }
  | (.Command, v) => { m with command? := some v }
  | (.Network, v) => { m with network? := some v }
  | (.TcpState, v) => { m with tcpState? := some v }

/-- Model of `parse_lsof_line` of `lsof.rs`: split the line on NUL bytes, decode each
chunk, and collect the fields into a map. -/
def parse_lsof_line (line : List Nat) : FieldMap :=
  ((splitByte 0 line).filterMap parse_lsof_part).foldl insertField FieldMap.empty

/-- The bytes of the string literal `"LISTEN"`. -/
def listenBytes : List Nat := [76, 73, 83, 84, 69, 78]

/-- The `flat_map` closure of `process_set`: a non-header field set yields a
port exactly when it carries a network address and the TCP state is the
exact string `LISTEN`. -/
def portOf (set : FieldMap) : Option (List Nat) :=
  match set.network?, set.tcpState? with
  | some network, some tcp => if tcp == listenBytes then some network else none
  | _, _ => none

/-- Model of `Itertools::unique`: keep the first occurrence of each element, in
order, remembering the already-seen elements. -/
def uniqueAux (seen : List (List Nat)) : List (List Nat) → List (List Nat)
  | [] => []
  | a :: rest =>
    if a ∈ seen then uniqueAux seen rest
    else a :: uniqueAux (a :: seen) rest

/-- The three panics `process_set` can raise: `BTreeMap` indexing on a
missing `Pid` key, `.parse().unwrap()` on the pid payload, and `BTreeMap`
indexing on a missing `Command` key. -/
inductive Panic
  | pidKeyNotFound
  | pidParseFail
  | commandKeyNotFound
deriving DecidableEq

/-- The `Process` struct of `lsof.rs` (`pid: usize` is modelled as `Nat`). -/
structure Process where
  pid : Nat
  command : List Nat
  ports : List (List Nat)
deriving DecidableEq

/-- Model of `process_set` of `lsof.rs`.  An empty slice gives `none` (the `?` on
`attributes.next()`); a missing `Pid` key, an unparseable pid payload, or a
missing `Command` key in the first field set each panic, in that order;
otherwise the remaining field sets are collected into the de-duplicated
port list. -/
def process_set (x : List FieldMap) : Except Panic (Option Process) :=
  match x with
  | [] => .ok none
  | process :: rest =>
    match process.pid? with
    | none => .error .pidKeyNotFound
    | some pidStr =>
      match parseUsize pidStr with
      | none => .error .pidParseFail
      | some pid =>
        match process.command? with
        | none => .error .commandKeyNotFound
        | some command =>
          .ok (some { pid := pid, command := command,
                      ports := uniqueAux [] (rest.filterMap portOf) })

/-- The accumulation loop of `parse_lsof_output`, with the mutable
`processes` and `process_attributes` vectors made explicit.  A field set
containing `Pid` closes out the accumulated group (a panic there aborts
the whole pass) and starts a new group with itself; any other field set is
appended to the current group; at end of input the final group is closed
out. -/
def parseLoop : List FieldMap → List Process → List FieldMap → Except Panic (List Process)
  | [], acc, buf =>
    match process_set buf with
    | .error e => .error e
    | .ok p? => .ok (acc ++ p?.toList)
  | s :: rest, acc, buf =>
    if s.pid?.isSome then
      match process_set buf with
      | .error e => .error e
      | .ok p? => parseLoop rest (acc ++ p?.toList) [s]
    else
      parseLoop rest acc (buf ++ [s])

/-- The per-line field sets of a raw byte input: split on newlines and
decode each line (`out.split(|&x| x == b'\n').map(parse_lsof_line)`). -/
def lineSets (out : List Nat) : List FieldMap :=
  (splitByte 10 out).map parse_lsof_line

/-- Model of `parse_lsof_output` of `lsof.rs`. -/
def parse_lsof_output (out : List Nat) : Except Panic (List Process) :=
  parseLoop (lineSets out) [] []

/-- Model of `processes` of `main.rs`, applied to the decoded `lsof` result: entries
with no listening port are filtered out of the public inventory. -/
def processes (l : List Process) : List Process :=
  l.filter (fun p => !p.ports.isEmpty)

/-- Model of `str::starts_with`: the needle `n` is an initial
segment of `h`. -/
def bytesLead : List Nat → List Nat → Bool
  | [], _ => true
  | _ :: _, [] => false
  | n :: ns, h :: hs => n == h && bytesLead ns hs

/-- Model of `str::contains` for a string pattern: the
needle `n` occurs as a contiguous byte run of `h` (the empty needle always
matches). -/
def bytesContain : List Nat → List Nat → Bool
  | [], n => bytesLead n []
  | h :: t, n => bytesLead n (h :: t) || bytesContain t n

/-- Decimal digit bytes of `n`, most significant first, with enough fuel. -/
def natDigitsAux : Nat → Nat → List Nat
  | 0, _ => []
  | fuel + 1, n =>
    if n < 10 then [48 + n]
    else natDigitsAux fuel (n / 10) ++ [48 + n % 10]

/-- Model of `usize::to_string`: the decimal digit bytes of `n`. -/
def natDigits (n : Nat) : List Nat := natDigitsAux (n + 1) n

/-- Model of `show_in_filter` of `main.rs`: an entry matches when the filter text is
a substring of the command, of any port string, or of the stringified pid. -/
def show_in_filter (p : Process) (filter : List Nat) : Bool :=
  bytesContain p.command filter
    || p.ports.any (fun port => bytesContain port filter)
    || bytesContain (natDigits p.pid) filter

/-- The spec's `apply_filter(Snapshot, text)`: the body of
`App::filtered_list`, with the authoritative filter text passed
explicitly. -/
def apply_filter (l : List Process) (filter : List Nat) : List Process :=
  l.filter (fun p => show_in_filter p filter)

/-- The `AppState` enum of `main.rs` (the `EditFilter` payload is the
in-progress filter text). -/
inductive AppState
  | ShowList
  | ShowHelp
  | EditFilter (filter : List Nat)
deriving DecidableEq

/-- The `App` struct of `main.rs`.  Of `TableState` only the selection is
semantically relevant (`table : Option Nat` is `TableState::selected`);
the channel receiver is an external handle and snapshot delivery is passed
explicitly to the operations that poll it. -/
structure App where
  processes : List Process
  exit : Bool
  table : Option Nat
  filter : List Nat
  state : AppState
deriving DecidableEq

/-- The filter text `App::filtered_list` consults: the in-progress text in
`EditFilter` mode, the confirmed filter otherwise. -/
def App.activeFilter (a : App) : List Nat :=
  match a.state with
  | .EditFilter f => f
  | _ => a.filter

/-- Model of `App::filtered_list` of `main.rs`. -/
def App.filtered_list (a : App) : List Process :=
  apply_filter a.processes a.activeFilter

/-- The `selected_pid` computation at the top of `App::refresh_processes`:
the pid of the entry of the current filtered view at the selected index,
when both exist. -/
def App.selectedPid (a : App) : Option Nat :=
  (a.table.bind (fun i => a.filtered_list[i]?)).map Process.pid

/-- Model of `Iterator::position`: index of the first element satisfying the
predicate. -/
def position (pred : Process → Bool) : List Process → Option Nat
  | [] => none
  | p :: rest => if pred p then some 0 else (position pred rest).map (· + 1)

/-- Model of `App::refresh_processes` of `main.rs`.  `recv` is the result of the
non-blocking `recv_timeout(Duration::ZERO)` poll: `some procs` when a
snapshot was waiting in the channel, `none` otherwise.  The selected pid is
recorded against the old filtered view, the snapshot is replaced if one
arrived, and the selection is re-resolved by pid against the new filtered
view (clearing it when the pid is gone). -/
def App.refresh_processes (a : App) (recv : Option (List Process)) : App :=
  let selected_pid := a.selectedPid
  let a1 :=
    match recv with
    | some procs => { a with processes := procs }
    | none => a
  match selected_pid with
  | some pid => { a1 with table := position (fun p => p.pid == pid) a1.filtered_list }
  | none => a1

/-- Model of `App::kill_selected` of `main.rs`, returning the updated app and the
pid passed to `kill` (`none` when the early returns fire and nothing is
killed).  The trailing `refresh_processes` call polls the channel, so it
takes the same explicit `recv` argument. -/
def App.kill_selected (a : App) (recv : Option (List Process)) : App × Option Nat :=
  match a.table with
  | none => (a, none)
  | some selected =>
    match a.filtered_list[selected]? with
    | none => (a, none)
    | some p => (a.refresh_processes recv, some p.pid)

/-- The `App` value built by `main`: `args` is the joined CLI arguments,
`lsofResult` the decoded enumeration behind the initial `processes()`
call.  `TableState::default()` carries no selection and `AppState` defaults
to `ShowList`. -/
def initApp (args : List Nat) (lsofResult : List Process) : App :=
  { processes := processes lsofResult
  , exit := false
  , table := none
  , filter := args
  , state := .ShowList }

/-- Index of the first occurrence of `x` in a list (length of the list when
absent). -/
def firstIdx (x : List Nat) : List (List Nat) → Nat
  | [] => 0
  | a :: rest => if a == x then 0 else firstIdx x rest + 1

/-- Substring predicate: `SubstrOf n h` holds when the byte string `n` occurs contiguously inside `h`.
This is the spec's reading of "contains the filter text as a substring". -/
def SubstrOf (needle hay : List Nat) : Prop :=
  ∃ pre post, hay = pre ++ needle ++ post

theorem mem_uniqueAux (l : List (List Nat)) :
    ∀ (seen : List (List Nat)) (x : List Nat),
      x ∈ uniqueAux seen l ↔ x ∈ l ∧ x ∉ seen := by
  induction l with
  | nil => intro seen x; simp [uniqueAux]
  | cons a rest ih =>
    intro seen x
    by_cases ha : a ∈ seen
    · simp only [uniqueAux, if_pos ha, ih, List.mem_cons]
      constructor
      · rintro ⟨hx, hns⟩; exact ⟨Or.inr hx, hns⟩
      · rintro ⟨hx | hx, hns⟩
        · exact absurd (hx ▸ ha) hns
        · exact ⟨hx, hns⟩
    · simp only [uniqueAux, if_neg ha, List.mem_cons, ih]
      constructor
      · rintro (rfl | ⟨hx, hns⟩)
        · exact ⟨Or.inl rfl, ha⟩
        · exact ⟨Or.inr hx, fun hs => hns (Or.inr hs)⟩
      · rintro ⟨rfl | hx, hns⟩
        · exact Or.inl rfl
        · by_cases hxa : x = a
          · exact Or.inl hxa
          · exact Or.inr ⟨hx, fun hs => hs.elim hxa hns⟩

theorem nodup_uniqueAux (l : List (List Nat)) :
    ∀ seen : List (List Nat), (uniqueAux seen l).Nodup := by
  induction l with
  | nil => intro seen; simp [uniqueAux]
  | cons a rest ih =>
    intro seen
    by_cases ha : a ∈ seen
    · simpa [uniqueAux, if_pos ha] using ih seen
    · simp only [uniqueAux, if_neg ha]
      refine List.nodup_cons.mpr ⟨fun hmem => ?_, ih (a :: seen)⟩
      exact ((mem_uniqueAux rest (a :: seen) a).mp hmem).2 (List.mem_cons_self a seen)

theorem pairwise_firstIdx_uniqueAux (l : List (List Nat)) :
    ∀ seen : List (List Nat),
      (uniqueAux seen l).Pairwise (fun x y => firstIdx x l < firstIdx y l) := by
  induction l with
  | nil => intro seen; simp [uniqueAux]
  | cons a rest ih =>
    intro seen
    by_cases ha : a ∈ seen
    · simp only [uniqueAux, if_pos ha]
      refine (ih seen).imp_of_mem ?_
      intro x y hx hy hlt
      have hxa : ¬(a == x) = true := by
        intro hax
        exact ((mem_uniqueAux rest seen x).mp hx).2 ((eq_of_beq hax) ▸ ha)
      have hya : ¬(a == y) = true := by
        intro hay
        exact ((mem_uniqueAux rest seen y).mp hy).2 ((eq_of_beq hay) ▸ ha)
      simp only [firstIdx, if_neg hxa, if_neg hya]
      omega
    · simp only [uniqueAux, if_neg ha]
      refine List.pairwise_cons.mpr ⟨?_, ?_⟩
      · intro y hy
        have hyne : ¬(a == y) = true := by
          intro hay
          exact ((mem_uniqueAux rest (a :: seen) y).mp hy).2
            ((eq_of_beq hay) ▸ List.mem_cons_self a seen)
        simp only [firstIdx, if_neg hyne, beq_self_eq_true, if_true]
        omega
      · refine (ih (a :: seen)).imp_of_mem ?_
        intro x y hx hy hlt
        have hxa : ¬(a == x) = true := by
          intro hax
          exact ((mem_uniqueAux rest (a :: seen) x).mp hx).2
            ((eq_of_beq hax) ▸ List.mem_cons_self a seen)
        have hya : ¬(a == y) = true := by
          intro hay
          exact ((mem_uniqueAux rest (a :: seen) y).mp hy).2
            ((eq_of_beq hay) ▸ List.mem_cons_self a seen)
        simp only [firstIdx, if_neg hxa, if_neg hya]
        omega

theorem bytesLead_iff (n : List Nat) :
    ∀ h : List Nat, bytesLead n h = true ↔ ∃ post, h = n ++ post := by
  induction n with
  | nil => intro h; simp [bytesLead]
  | cons x xs ih =>
    intro h
    cases h with
    | nil => simp [bytesLead]
    | cons y ys =>
      simp only [bytesLead, Bool.and_eq_true, beq_iff_eq, ih, List.cons_append,
        List.cons.injEq]
      constructor
      · rintro ⟨rfl, post, rfl⟩
        exact ⟨post, rfl, rfl⟩
      · rintro ⟨post, rfl, rfl⟩
        exact ⟨rfl, post, rfl⟩

theorem bytesContain_iff (h : List Nat) :
    ∀ n : List Nat, bytesContain h n = true ↔ SubstrOf n h := by
  induction h with
  | nil =>
    intro n
    simp only [bytesContain, bytesLead_iff, SubstrOf]
    constructor
    · rintro ⟨post, hp⟩
      exact ⟨[], post, by simpa using hp⟩
    · rintro ⟨pre, post, hp⟩
      have h2 := List.append_eq_nil.mp hp.symm
      have h3 := List.append_eq_nil.mp h2.1
      exact ⟨post, by simp [h3.2, h2.2]⟩
  | cons x t ih =>
    intro n
    simp only [bytesContain, Bool.or_eq_true, bytesLead_iff, ih, SubstrOf]
    constructor
    · rintro (⟨post, hp⟩ | ⟨pre, post, hp⟩)
      · exact ⟨[], post, by simpa using hp⟩
      · exact ⟨x :: pre, post, by simp [hp]⟩
    · rintro ⟨pre, post, hp⟩
      cases pre with
      | nil => exact Or.inl ⟨post, by simpa using hp⟩
      | cons y pre2 =>
        simp only [List.cons_append, List.cons.injEq] at hp
        exact Or.inr ⟨pre2, post, hp.2⟩

theorem bytesContain_nil_needle (h : List Nat) : bytesContain h [] = true := by
  cases h <;> simp [bytesContain, bytesLead]

theorem show_in_filter_iff (p : Process) (f : List Nat) :
    show_in_filter p f = true ↔
      SubstrOf f p.command
        ∨ (∃ port ∈ p.ports, SubstrOf f port)
        ∨ SubstrOf f (natDigits p.pid) := by
  simp [show_in_filter, Bool.or_eq_true, List.any_eq_true, bytesContain_iff, or_assoc]

theorem show_in_filter_nil (p : Process) : show_in_filter p [] = true := by
  simp [show_in_filter, bytesContain_nil_needle]

/-- A field set can head a group without panicking: it has a `Pid` field
whose payload parses as a `usize` and a `Command` field. -/
def goodHead (s : FieldMap) : Bool :=
  match s.pid? with
  | some v => (parseUsize v).isSome && s.command?.isSome
  | none => false

/-- Every `Pid`-bearing field set of the list is a well-formed header. -/
def tailGood (sets : List FieldMap) : Bool :=
  sets.all (fun s => !s.pid?.isSome || goodHead s)

/-- The decoded line sets that let the whole pass finish without a panic:
the first line's field set is a well-formed header (in particular it
carries `Pid`), and so is every later `Pid`-bearing field set. -/
def goodSets : List FieldMap → Bool
  | [] => true
  | s :: rest => goodHead s && tailGood rest

theorem goodHead_pid_isSome (s : FieldMap) (h : goodHead s = true) :
    s.pid?.isSome = true := by
  cases hp : s.pid? with
  | none => simp [goodHead, hp] at h
  | some v => simp [hp]

theorem process_set_good (s : FieldMap) (t : List FieldMap) (h : goodHead s = true) :
    ∃ p : Process, process_set (s :: t) = .ok (some p) ∧
      p.ports = uniqueAux [] (t.filterMap portOf) := by
  cases hp : s.pid? with
  | none => simp [goodHead, hp] at h
  | some v =>
    have h2 : (parseUsize v).isSome = true ∧ s.command?.isSome = true := by
      simpa [goodHead, hp, Bool.and_eq_true] using h
    obtain ⟨n, hn⟩ := Option.isSome_iff_exists.mp h2.1
    obtain ⟨c, hc⟩ := Option.isSome_iff_exists.mp h2.2
    exact ⟨⟨n, c, uniqueAux [] (t.filterMap portOf)⟩, by simp [process_set, hp, hn, hc], rfl⟩

theorem process_set_bad (s : FieldMap) (t : List FieldMap) (h : goodHead s = false) :
    ∃ e, process_set (s :: t) = .error e := by
  cases hp : s.pid? with
  | none => exact ⟨.pidKeyNotFound, by simp [process_set, hp]⟩
  | some v =>
    cases hn : parseUsize v with
    | none => exact ⟨.pidParseFail, by simp [process_set, hp, hn]⟩
    | some n =>
      cases hc : s.command? with
      | none => exact ⟨.commandKeyNotFound, by simp [process_set, hp, hn, hc]⟩
      | some c => simp [goodHead, hp, hn, hc] at h

theorem process_set_some_nodup (x : List FieldMap) (p : Process)
    (h : process_set x = .ok (some p)) : p.ports.Nodup := by
  cases x with
  | nil => simp [process_set] at h
  | cons s t =>
    cases hp : s.pid? with
    | none => simp [process_set, hp] at h
    | some v =>
      cases hn : parseUsize v with
      | none => simp [process_set, hp, hn] at h
      | some n =>
        cases hc : s.command? with
        | none => simp [process_set, hp, hn, hc] at h
        | some c =>
          simp only [process_set, hp, hn, hc, Except.ok.injEq, Option.some.injEq] at h
          rw [← h]
          exact nodup_uniqueAux (t.filterMap portOf) []

theorem splitByte_ne_nil (d : Nat) (l : List Nat) : splitByte d l ≠ [] := by
  cases l with
  | nil => simp [splitByte]
  | cons b rest =>
    simp only [splitByte]
    split
    · exact List.cons_ne_nil _ _
    · cases h : splitByte d rest with
      | nil => simp
      | cons g gs => simp

theorem parseLoop_good (sets : List FieldMap) :
    ∀ (acc : List Process) (hd : FieldMap) (btl : List FieldMap),
      goodHead hd = true → tailGood sets = true →
      ∃ l, parseLoop sets acc (hd :: btl) = .ok (acc ++ l) ∧
        l.length = 1 + sets.countP (fun s => s.pid?.isSome) := by
  induction sets with
  | nil =>
    intro acc hd btl hh _
    obtain ⟨p, hps, _⟩ := process_set_good hd btl hh
    exact ⟨[p], by simp [parseLoop, hps], by simp⟩
  | cons s rest ih =>
    intro acc hd btl hh ht
    have ht2 : (!s.pid?.isSome || goodHead s) = true ∧ tailGood rest = true := by
      simpa [tailGood, List.all_cons, Bool.and_eq_true] using ht
    by_cases hpid : s.pid?.isSome = true
    · have hgs : goodHead s = true := by
        have := ht2.1
        simpa [hpid] using this
      obtain ⟨p, hps, _⟩ := process_set_good hd btl hh
      obtain ⟨l, hl, hlen⟩ := ih (acc ++ [p]) s [] hgs ht2.2
      refine ⟨p :: l, ?_, ?_⟩
      · have : parseLoop (s :: rest) acc (hd :: btl) = parseLoop rest (acc ++ [p]) [s] := by
          simp [parseLoop, hpid, hps]
        rw [this, hl]
        simp
      · simp only [List.length_cons, List.countP_cons, hpid, if_pos]
        omega
    · have hpidf : s.pid?.isSome = false := Bool.eq_false_iff.mpr hpid
      obtain ⟨l, hl, hlen⟩ := ih acc hd (btl ++ [s]) hh ht2.2
      refine ⟨l, ?_, ?_⟩
      · have : parseLoop (s :: rest) acc (hd :: btl) = parseLoop rest acc (hd :: (btl ++ [s])) := by
          simp [parseLoop, hpidf]
        rw [this, hl]
      · simp only [List.countP_cons, hpidf, if_neg]
        simpa using hlen

theorem parseLoop_err (sets : List FieldMap) :
    ∀ (acc : List Process) (hd : FieldMap) (btl : List FieldMap),
      (goodHead hd && tailGood sets) = false →
      ∃ e, parseLoop sets acc (hd :: btl) = .error e := by
  induction sets with
  | nil =>
    intro acc hd btl h
    have hh : goodHead hd = false := by simpa [tailGood] using h
    obtain ⟨e, he⟩ := process_set_bad hd btl hh
    exact ⟨e, by simp [parseLoop, he]⟩
  | cons s rest ih =>
    intro acc hd btl h
    by_cases hh : goodHead hd = true
    · have ht : tailGood (s :: rest) = false := by simpa [hh] using h
      by_cases hpid : s.pid?.isSome = true
      · obtain ⟨p, hps, _⟩ := process_set_good hd btl hh
        have hst : (goodHead s && tailGood rest) = false := by
          have hall : tailGood (s :: rest) = ((!s.pid?.isSome || goodHead s) && tailGood rest) := rfl
          rw [hall, hpid] at ht
          simpa using ht
        obtain ⟨e, he⟩ := ih (acc ++ [p]) s [] hst
        refine ⟨e, ?_⟩
        have : parseLoop (s :: rest) acc (hd :: btl) = parseLoop rest (acc ++ [p]) [s] := by
          simp [parseLoop, hpid, hps]
        rw [this, he]
      · have hpidf : s.pid?.isSome = false := Bool.eq_false_iff.mpr hpid
        have ht2 : tailGood rest = false := by
          have hall : tailGood (s :: rest) = ((!s.pid?.isSome || goodHead s) && tailGood rest) := rfl
          rw [hall, hpidf] at ht
          simpa using ht
        obtain ⟨e, he⟩ := ih acc hd (btl ++ [s]) (by simp [ht2])
        refine ⟨e, ?_⟩
        have : parseLoop (s :: rest) acc (hd :: btl) = parseLoop rest acc (hd :: (btl ++ [s])) := by
          simp [parseLoop, hpidf]
        rw [this, he]
    · have hhf : goodHead hd = false := Bool.eq_false_iff.mpr hh
      by_cases hpid : s.pid?.isSome = true
      · obtain ⟨e, he⟩ := process_set_bad hd btl hhf
        exact ⟨e, by simp [parseLoop, hpid, he]⟩
      · have hpidf : s.pid?.isSome = false := Bool.eq_false_iff.mpr hpid
        obtain ⟨e, he⟩ := ih acc hd (btl ++ [s]) (by simp [hhf])
        refine ⟨e, ?_⟩
        have : parseLoop (s :: rest) acc (hd :: btl) = parseLoop rest acc (hd :: (btl ++ [s])) := by
          simp [parseLoop, hpidf]
        rw [this, he]

theorem parseLoop_ok_nodup (sets : List FieldMap) :
    ∀ (acc : List Process) (buf : List FieldMap) (l : List Process),
      parseLoop sets acc buf = .ok l → (∀ p ∈ acc, p.ports.Nodup) →
      ∀ p ∈ l, p.ports.Nodup := by
  induction sets with
  | nil =>
    intro acc buf l h hacc p hp
    cases hps : process_set buf with
    | error e => simp [parseLoop, hps] at h
    | ok p? =>
      simp only [parseLoop, hps, Except.ok.injEq] at h
      rw [← h] at hp
      rcases List.mem_append.mp hp with h1 | h2
      · exact hacc p h1
      · cases p? with
        | none => simp at h2
        | some q =>
          simp only [Option.toList_some, List.mem_singleton] at h2
          rw [h2]
          exact process_set_some_nodup buf q hps
  | cons s rest ih =>
    intro acc buf l h hacc
    by_cases hpid : s.pid?.isSome = true
    · cases hps : process_set buf with
      | error e => simp [parseLoop, hpid, hps] at h
      | ok p? =>
        have hstep : parseLoop (s :: rest) acc buf = parseLoop rest (acc ++ p?.toList) [s] := by
          simp [parseLoop, hpid, hps]
        rw [hstep] at h
        refine ih (acc ++ p?.toList) [s] l h ?_
        intro q hq
        rcases List.mem_append.mp hq with h1 | h2
        · exact hacc q h1
        · cases p? with
          | none => simp at h2
          | some r =>
            simp only [Option.toList_some, List.mem_singleton] at h2
            rw [h2]
            exact process_set_some_nodup buf r hps
    · have hpidf : s.pid?.isSome = false := Bool.eq_false_iff.mpr hpid
      have hstep : parseLoop (s :: rest) acc buf = parseLoop rest acc (buf ++ [s]) := by
        simp [parseLoop, hpidf]
      rw [hstep] at h
      exact ih acc (buf ++ [s]) l h hacc

theorem lineSets_ne_nil (out : List Nat) : lineSets out ≠ [] := by
  intro h
  exact splitByte_ne_nil 10 out (List.map_eq_nil_iff.mp h)

theorem parse_ok_of_goodSets (out : List Nat) (h : goodSets (lineSets out) = true) :
    ∃ l, parse_lsof_output out = .ok l ∧
      l.length = (lineSets out).countP (fun s => s.pid?.isSome) := by
  obtain ⟨s, rest, hsets⟩ : ∃ s rest, lineSets out = s :: rest := by
    cases hc : lineSets out with
    | nil => exact absurd hc (lineSets_ne_nil out)
    | cons a b => exact ⟨a, b, rfl⟩
  rw [hsets] at h
  have hgh : goodHead s = true ∧ tailGood rest = true := by
    simpa [goodSets, Bool.and_eq_true] using h
  have hpid : s.pid?.isSome = true := goodHead_pid_isSome s hgh.1
  obtain ⟨l, hl, hlen⟩ := parseLoop_good rest [] s [] hgh.1 hgh.2
  refine ⟨l, ?_, ?_⟩
  · have hstep : parseLoop (s :: rest) [] [] = parseLoop rest [] [s] := by
      simp [parseLoop, hpid, process_set]
    rw [parse_lsof_output, hsets, hstep]
    simpa using hl
  · rw [hsets]
    simp only [List.countP_cons, hpid, if_pos]
    omega

theorem parse_err_of_badSets (out : List Nat) (h : goodSets (lineSets out) = false) :
    ∃ e, parse_lsof_output out = .error e := by
  obtain ⟨s, rest, hsets⟩ : ∃ s rest, lineSets out = s :: rest := by
    cases hc : lineSets out with
    | nil => exact absurd hc (lineSets_ne_nil out)
    | cons a b => exact ⟨a, b, rfl⟩
  rw [hsets] at h
  have h2 : (goodHead s && tailGood rest) = false := by
    simpa [goodSets] using h
  by_cases hpid : s.pid?.isSome = true
  · obtain ⟨e, he⟩ := parseLoop_err rest [] s [] h2
    refine ⟨e, ?_⟩
    have hstep : parseLoop (s :: rest) [] [] = parseLoop rest [] [s] := by
      simp [parseLoop, hpid, process_set]
    rw [parse_lsof_output, hsets, hstep, he]
  · have hpidf : s.pid?.isSome = false := Bool.eq_false_iff.mpr hpid
    obtain ⟨e, he⟩ := parseLoop_err rest [] s [] h2
    refine ⟨e, ?_⟩
    have hstep : parseLoop (s :: rest) [] [] = parseLoop rest [] [s] := by
      simp [parseLoop, hpidf]
    rw [parse_lsof_output, hsets, hstep, he]

theorem position_eq_none_iff (pred : Process → Bool) (l : List Process) :
    position pred l = none ↔ ∀ p ∈ l, pred p = false := by
  induction l with
  | nil => simp [position]
  | cons p rest ih =>
    by_cases hp : pred p = true
    · simp [position, hp]
    · have hpf : pred p = false := Bool.eq_false_iff.mpr hp
      simp [position, hpf, Option.map_eq_none', ih]

theorem position_eq_some (pred : Process → Bool) (l : List Process) :
    ∀ i, position pred l = some i →
      ∃ h : i < l.length, pred (l.get ⟨i, h⟩) = true ∧
        ∀ j (hj : j < l.length), j < i → pred (l.get ⟨j, hj⟩) = false := by
  induction l with
  | nil => intro i h; simp [position] at h
  | cons p rest ih =>
    intro i h
    by_cases hp : pred p = true
    · simp only [position, hp, if_true, Option.some.injEq] at h
      rw [← h]
      refine ⟨by simp, by simpa using hp, ?_⟩
      intro j hj hji
      omega
    · have hpf : pred p = false := Bool.eq_false_iff.mpr hp
      simp only [position, hpf, Bool.false_eq_true, if_false] at h
      obtain ⟨i2, hpos, hi⟩ := Option.map_eq_some'.mp h
      obtain ⟨hlt, hpred, hmin⟩ := ih i2 hpos
      rw [← hi]
      refine ⟨by simpa using Nat.succ_lt_succ hlt, by simpa using hpred, ?_⟩
      intro j hj hji
      cases j with
      | zero => simpa using hpf
      | succ j2 =>
        have hj2 : j2 < rest.length := by simpa using hj
        have := hmin j2 hj2 (by omega)
        simpa using this

/-- The selection contract of a refresh with selected pid `P`: the new
selection is `none` exactly when no entry of the new filtered view has pid
`P`, and otherwise it is the index of the first such entry. -/
def SelectionSpec (a2 : App) (P : Nat) : Prop :=
  (a2.table = none ↔ ∀ p ∈ a2.filtered_list, p.pid ≠ P)
    ∧ ∀ i, a2.table = some i →
        ∃ h : i < a2.filtered_list.length,
          (a2.filtered_list.get ⟨i, h⟩).pid = P ∧
          ∀ j (hj : j < a2.filtered_list.length), j < i →
            (a2.filtered_list.get ⟨j, hj⟩).pid ≠ P

theorem refresh_eq (a : App) (procs : List Process) (P : Nat)
    (h : a.selectedPid = some P) :
    a.refresh_processes (some procs) =
      { a with processes := procs
             , table := position (fun p => p.pid == P)
                 ({ a with processes := procs } : App).filtered_list } := by
  simp [App.refresh_processes, h]

/-- Bytes of `"p100\x00csshd\nn*:22\x00TST=LISTEN"`: one well-formed group
with header pid `100`, command `sshd`, and one listening port `*:22`. -/
def sampleGood : List Nat :=
  [112, 49, 48, 48, 0, 99, 115, 115, 104, 100, 10,
   110, 42, 58, 50, 50, 0, 84, 83, 84, 61, 76, 73, 83, 84, 69, 78]

/-- Bytes of `"p100\np200\x00cnginx\nn*:80\x00TST=LISTEN"`: the first
group's header carries a pid but no command; the second group is fully
well-formed. -/
def sampleNoCommand : List Nat :=
  [112, 49, 48, 48, 10,
   112, 50, 48, 48, 0, 99, 110, 103, 105, 110, 120, 10,
   110, 42, 58, 56, 48, 0, 84, 83, 84, 61, 76, 73, 83, 84, 69, 78]

/-- Bytes of `"x\np100\x00csshd\nn*:22\x00TST=LISTEN"`: a junk line with no
`Pid` field precedes the first pid-bearing line of an otherwise well-formed
input. -/
def sampleLeadingJunk : List Nat := [120, 10] ++ sampleGood

/-- The decoded field set of the line `"p100\x00csshd"`. -/
def headerMapSample : FieldMap :=
  ⟨some [49, 48, 48], some [115, 115, 104, 100], none, none⟩

/-- The decoded field set of the line `"n*:22\x00TST=LISTEN"`. -/
def portMapSample : FieldMap :=
  ⟨none, none, some [42, 58, 50, 50], some listenBytes⟩

/-- C1: the spec claims the full decode-and-aggregate pass returns normally
on *every* raw byte input.  On the code this fails (see the
counterexample); the amended claim proved here is that the pass returns
normally on every input whose decoded line sets are well-formed: the first
line's field set is a parseable header and so is every later pid-bearing
field set (`goodSets`). -/
theorem C1_decode_returns_ok_of_wellformed (out : List Nat)
    (h : goodSets (lineSets out) = true) :
    ∃ l, parse_lsof_output out = .ok l := by
  obtain ⟨l, hl, _⟩ := parse_ok_of_goodSets out h
  exact ⟨l, hl⟩

/-- C1 counterexample: already the empty input panics — the final
close-out group holds the single empty field set and the `BTreeMap` index
on its missing `Pid` key panics — refuting that every raw byte input
returns normally with at worst an empty snapshot. -/
theorem C1_counterexample : parse_lsof_output [] = .error .pidKeyNotFound := by
  rfl

/-- C1 witness: a concrete well-formed input satisfying the hypothesis. -/
theorem C1_witness :
    goodSets (lineSets sampleGood) = true
      ∧ ∃ l, parse_lsof_output sampleGood = .ok l :=
  ⟨by decide, C1_decode_returns_ok_of_wellformed sampleGood (by decide)⟩

/-- C2: the spec claims a group with an unusable header (missing `Command`,
missing `Pid`, or unparseable `Pid` payload) is dropped while the other
groups still decode.  On the code such a header panics instead; the
amended claim proved here is that any input whose line sets are not
well-formed makes the whole decode pass abort with a panic, so no group at
all produces an entry. -/
theorem C2_bad_header_aborts_decode (out : List Nat)
    (h : goodSets (lineSets out) = false) :
    ∃ e, parse_lsof_output out = .error e :=
  parse_err_of_badSets out h

/-- C2 counterexample: in `"p100\np200\x00cnginx\nn*:80\x00TST=LISTEN"` the
first group's header lacks `Command`; the claim says this group yields no
entry while the nginx group decodes to its entry, but the code panics on
the missing `Command` key and produces no snapshot at all. -/
theorem C2_counterexample :
    parse_lsof_output sampleNoCommand = .error .commandKeyNotFound := by
  rfl

/-- C2 witness: a concrete ill-formed input satisfying the hypothesis. -/
theorem C2_witness :
    goodSets (lineSets sampleNoCommand) = false
      ∧ ∃ e, parse_lsof_output sampleNoCommand = .error e :=
  ⟨by decide, C2_bad_header_aborts_decode sampleNoCommand (by decide)⟩

/-- C3: the spec claims a pid-less field set never starts a record and that
lines before the first pid-bearing line are dropped entirely.  The first
half holds (on a panic-free run the number of entries equals the number of
pid-bearing field sets, so only pid-bearing sets start records), but the
second fails on the code: when the first line's field set lacks `Pid`, the
decode pass panics instead of dropping the leading lines. -/
theorem C3_leading_lines (out : List Nat) (s : FieldMap) (rest : List FieldMap)
    (h : lineSets out = s :: rest) :
    (s.pid? = none → ∃ e, parse_lsof_output out = .error e)
      ∧ (goodSets (s :: rest) = true →
          ∃ l, parse_lsof_output out = .ok l ∧
            l.length = (s :: rest).countP (fun t => t.pid?.isSome)) := by
  constructor
  · intro hnone
    apply parse_err_of_badSets
    rw [h]
    simp [goodSets, goodHead, hnone]
  · intro hgood
    obtain ⟨l, hl, hlen⟩ := parse_ok_of_goodSets out (by rw [h]; exact hgood)
    rw [h] at hlen
    exact ⟨l, hl, hlen⟩

/-- C3 counterexample: with a junk line `"x"` before the first pid-bearing
line the claim predicts the junk contributes nothing and the valid group
still decodes; the code instead panics on the junk group's missing `Pid`
key, yielding no snapshot. -/
theorem C3_counterexample :
    parse_lsof_output sampleLeadingJunk = .error .pidKeyNotFound := by
  rfl

/-- C3 witness: the concrete line sets of `sampleGood` satisfying the
hypothesis. -/
theorem C3_witness :
    lineSets sampleGood = headerMapSample :: [portMapSample]
      ∧ ((headerMapSample.pid? = none →
            ∃ e, parse_lsof_output sampleGood = .error e)
          ∧ (goodSets (headerMapSample :: [portMapSample]) = true →
              ∃ l, parse_lsof_output sampleGood = .ok l ∧
                l.length = (headerMapSample :: [portMapSample]).countP
                  (fun t => t.pid?.isSome))) :=
  ⟨by decide, C3_leading_lines sampleGood headerMapSample [portMapSample] (by decide)⟩

theorem portOf_eq_some (set : FieldMap) (port : List Nat) :
    portOf set = some port ↔
      set.network? = some port ∧ set.tcpState? = some listenBytes := by
  cases hn : set.network? with
  | none => simp [portOf, hn]
  | some nv =>
    cases ht : set.tcpState? with
    | none => simp [portOf, hn, ht]
    | some tv =>
      by_cases htl : tv = listenBytes
      · subst htl
        simp [portOf, hn, ht]
      · simp [portOf, hn, ht, htl]

theorem process_set_some_ports (s : FieldMap) (t : List FieldMap) (p : Process)
    (h : process_set (s :: t) = .ok (some p)) :
    p.ports = uniqueAux [] (t.filterMap portOf) := by
  cases hp : s.pid? with
  | none => simp [process_set, hp] at h
  | some v =>
    cases hn : parseUsize v with
    | none => simp [process_set, hp, hn] at h
    | some n =>
      cases hc : s.command? with
      | none => simp [process_set, hp, hn, hc] at h
      | some c =>
        simp only [process_set, hp, hn, hc, Except.ok.injEq, Option.some.injEq] at h
        rw [← h]

/-- The port contract of one reduced group: a non-header field set
contributes a port exactly when it carries a network address together with
the exact TCP state `LISTEN`; the collected ports are duplicate-free and
ordered by first sighting among the raw port observations. -/
def PortSpec (t : List FieldMap) (p : Process) : Prop :=
  (∀ port, port ∈ p.ports ↔
      ∃ set ∈ t, set.network? = some port ∧ set.tcpState? = some listenBytes)
    ∧ p.ports.Nodup
    ∧ p.ports.Pairwise
        (fun x y => firstIdx x (t.filterMap portOf) < firstIdx y (t.filterMap portOf))

/-- C4: for every field group reduced to an entry, a field set after the
header contributes a port iff it contains both a network address and a TCP
state exactly equal to `LISTEN`; the ports sequence keeps first-seen order
and holds no duplicate strings. -/
theorem C4_ports_characterization (s : FieldMap) (t : List FieldMap) (p : Process)
    (h : process_set (s :: t) = .ok (some p)) : PortSpec t p := by
  have hports := process_set_some_ports s t p h
  refine ⟨?_, ?_, ?_⟩
  · intro port
    rw [hports, mem_uniqueAux]
    simp [List.mem_filterMap, portOf_eq_some]
  · rw [hports]
    exact nodup_uniqueAux (t.filterMap portOf) []
  · rw [hports]
    exact pairwise_firstIdx_uniqueAux (t.filterMap portOf) []

/-- A field set with a network address and state `LISTEN` on port `a`. -/
def portSetListenA : FieldMap := ⟨none, none, some [97], some listenBytes⟩

/-- A field set with a network address on port `b` but state `EST`. -/
def portSetEstB : FieldMap := ⟨none, none, some [98], some [69, 83, 84]⟩

/-- A group tail with a listening port, a non-listening observation, and a
duplicate of the listening port. -/
def sampleGroupTail : List FieldMap := [portSetListenA, portSetEstB, portSetListenA]

/-- The entry the sample group reduces to: the `EST` observation is
skipped and the duplicate `a` collapses. -/
def sampleDedupProc : Process := ⟨100, [115, 115, 104, 100], [[97]]⟩

/-- C4 witness: the concrete group satisfying the hypothesis. -/
theorem C4_witness :
    process_set (headerMapSample :: sampleGroupTail) = .ok (some sampleDedupProc)
      ∧ PortSpec sampleGroupTail sampleDedupProc :=
  ⟨by rfl,
   C4_ports_characterization headerMapSample sampleGroupTail sampleDedupProc (by rfl)⟩

/-- C5: every entry of the public inventory (`processes`, the result the
Inventory Source hands to callers after a successful decode) has a
non-negative pid and a non-empty, duplicate-free ports sequence, and an
entry of the snapshot with empty ports is exactly what gets filtered out. -/
theorem C5_inventory_invariants (out : List Nat) (l : List Process)
    (h : parse_lsof_output out = .ok l) :
    (∀ p, p ∈ processes l ↔ p ∈ l ∧ p.ports ≠ [])
      ∧ ∀ p ∈ processes l, 0 ≤ p.pid ∧ p.ports ≠ [] ∧ p.ports.Nodup := by
  have hnodup : ∀ p ∈ l, p.ports.Nodup := by
    refine parseLoop_ok_nodup (lineSets out) [] [] l h ?_
    intro p hp
    simp at hp
  have hmem : ∀ p, p ∈ processes l ↔ p ∈ l ∧ p.ports ≠ [] := by
    intro p
    simp [processes, List.mem_filter, List.isEmpty_iff]
  refine ⟨hmem, fun p hp => ?_⟩
  obtain ⟨hpl, hne⟩ := (hmem p).mp hp
  exact ⟨Nat.zero_le _, hne, hnodup p hpl⟩

/-- The snapshot `sampleGood` decodes to. -/
def sampleSnapshot : List Process := [⟨100, [115, 115, 104, 100], [[42, 58, 50, 50]]⟩]

/-- C5 witness: the concrete decode satisfying the hypothesis. -/
theorem C5_witness :
    parse_lsof_output sampleGood = .ok sampleSnapshot
      ∧ ((∀ p, p ∈ processes sampleSnapshot ↔ p ∈ sampleSnapshot ∧ p.ports ≠ [])
          ∧ ∀ p ∈ processes sampleSnapshot,
              0 ≤ p.pid ∧ p.ports ≠ [] ∧ p.ports.Nodup) :=
  ⟨by rfl, C5_inventory_invariants sampleGood sampleSnapshot (by rfl)⟩

/-- C6: `apply_filter` returns exactly the entries whose command,
stringified pid, or some port string contains the filter text as a
substring, in the snapshot's relative order, and the empty filter text
matches every entry. -/
theorem C6_filter_semantics (l : List Process) (f : List Nat) :
    (∀ p, p ∈ apply_filter l f ↔
        p ∈ l ∧ (SubstrOf f p.command
          ∨ (∃ port ∈ p.ports, SubstrOf f port)
          ∨ SubstrOf f (natDigits p.pid)))
      ∧ (apply_filter l f).Sublist l
      ∧ apply_filter l [] = l := by
  refine ⟨fun p => ?_, List.filter_sublist l, ?_⟩
  · simp [apply_filter, List.mem_filter, show_in_filter_iff]
  · exact List.filter_eq_self.mpr fun p _ => show_in_filter_nil p

theorem selectionSpec_of_position (b : App) (P : Nat)
    (hb : b.table = position (fun p => p.pid == P) b.filtered_list) :
    SelectionSpec b P := by
  constructor
  · rw [hb, position_eq_none_iff]
    constructor
    · intro hall p hp he
      have := hall p hp
      simp [he] at this
    · intro hall p hp
      exact beq_eq_false_iff_ne.mpr (hall p hp)
  · intro i hi
    rw [hb] at hi
    obtain ⟨hlt, hpred, hmin⟩ := position_eq_some _ _ i hi
    refine ⟨hlt, by simpa using hpred, ?_⟩
    intro j hj hji
    have := hmin j hj hji
    simpa using this

/-- C7: across a snapshot replacement, a selection recorded as pid `P`
resolves to the index of the first entry with pid `P` in the new filtered
view when one appears there, and to `none` otherwise; filter and mode are
untouched. -/
theorem C7_selection_preserved (a : App) (procs : List Process) (P : Nat)
    (h : a.selectedPid = some P) :
    (a.refresh_processes (some procs)).processes = procs
      ∧ (a.refresh_processes (some procs)).filter = a.filter
      ∧ (a.refresh_processes (some procs)).state = a.state
      ∧ SelectionSpec (a.refresh_processes (some procs)) P := by
  rw [refresh_eq a procs P h]
  exact ⟨rfl, rfl, rfl, selectionSpec_of_position _ P rfl⟩

/-- A process with pid `100`, command `a`, port `1`. -/
def procW1 : Process := ⟨100, [97], [[49]]⟩

/-- A process with pid `200`, command `b`, port `2`. -/
def procW2 : Process := ⟨200, [98], [[50]]⟩

/-- A process with pid `300`, command `c`, port `3`. -/
def procW3 : Process := ⟨300, [99], [[51]]⟩

/-- An app showing `[procW1, procW2]` with the entry at filtered index 1
(pid `200`) selected. -/
def appW : App :=
  { processes := [procW1, procW2]
  , exit := false
  , table := some 1
  , filter := []
  , state := .ShowList }

/-- A replacement snapshot in which pid `200` moved to a different index. -/
def newProcsW : List Process := [procW3, procW2]

/-- C7 witness: the concrete selected app satisfying the hypothesis. -/
theorem C7_witness :
    appW.selectedPid = some 200
      ∧ ((appW.refresh_processes (some newProcsW)).processes = newProcsW
          ∧ (appW.refresh_processes (some newProcsW)).filter = appW.filter
          ∧ (appW.refresh_processes (some newProcsW)).state = appW.state
          ∧ SelectionSpec (appW.refresh_processes (some newProcsW)) 200) :=
  ⟨by decide, C7_selection_preserved appW newProcsW 200 (by decide)⟩

/-- C8 counterexample: an app started as `main` builds it, whose initial
filtered list has exactly one entry, still has no selection —
`TableState::default()` selects nothing and nothing in the startup path
selects the lone entry, refuting the claimed auto-selection. -/
theorem C8_counterexample :
    (initApp [] [procW1]).filtered_list.length = 1
      ∧ (initApp [] [procW1]).table = none := by
  decide

/-- C8: the spec claims the lone entry of a single-element initial filtered
list is selected at startup.  The code never does this; the amended claim
proved here is that at startup the selection is `none` regardless of the
filtered list, and stays `none` across a refresh until the operator moves
the highlight. -/
theorem C8_initial_selection_none (args : List Nat) (ps : List Process)
    (recv : Option (List Process)) :
    (initApp args ps).table = none
      ∧ ((initApp args ps).refresh_processes recv).table = none := by
  refine ⟨rfl, ?_⟩
  cases recv with
  | none => rfl
  | some procs => rfl

/-- C10: when nothing is selected, or the selected index is outside the
current filtered view, the kill action terminates nothing and leaves the
whole application state unchanged. -/
theorem C10_kill_invalid_selection_noop (a : App) (recv : Option (List Process))
    (h : a.table = none ∨ ∃ i, a.table = some i ∧ a.filtered_list.length ≤ i) :
    a.kill_selected recv = (a, none) := by
  rcases h with h | ⟨i, hi, hlen⟩
  · simp [App.kill_selected, h]
  · have hnone : a.filtered_list[i]? = none := List.getElem?_eq_none hlen
    simp [App.kill_selected, hi, hnone]

/-- An app with an out-of-range selected index. -/
def appStale : App :=
  { processes := []
  , exit := false
  , table := some 5
  , filter := []
  , state := .ShowList }

/-- C10 witness: the concrete app with a stale index satisfying the
hypothesis. -/
theorem C10_witness :
    (appStale.table = none
        ∨ ∃ i, appStale.table = some i ∧ appStale.filtered_list.length ≤ i)
      ∧ appStale.kill_selected none = (appStale, none) :=
  ⟨Or.inr ⟨5, rfl, by decide⟩,
   C10_kill_invalid_selection_noop appStale none (Or.inr ⟨5, rfl, by decide⟩)⟩
